import Mathlib

set_option maxRecDepth 8000

/-! Verification of the type-generation script `scripts/update-types.ts`.

The script reads the PostgreSQL catalog, renders TypeScript enum and record
type declarations, and splices them into `src/db.ts` after the line
`export default db;`.  Text is embedded as `List Char`, one entry per code
unit of the JavaScript string (all characters involved are plain ASCII).
Each definition below mirrors one expression of the script; the few pieces
that come from the lodash library or from Node/Promise semantics are modelled
and documented where they are defined.
-/

/-- Shorthand turning a string literal into the `List Char` representation
used throughout this development. -/
def lc (s : String) : List Char := s.data

/-- The `singular` function of `update-types.ts` (lines 14-22): if the word
ends in "ies" replace that by "y"; else if it ends in "es" replace that by
"y"; else if it ends in "s" drop the "s"; else return the word unchanged.
`word.substring(0, word.length - k)` is `List.take (length - k)`. -/
def singular (word : List Char) : List Char :=
  if (lc "ies").isSuffixOf word then word.take (word.length - 3) ++ lc "y"
  else if (lc "es").isSuffixOf word then word.take (word.length - 2) ++ lc "y"
  else if (lc "s").isSuffixOf word then word.take (word.length - 1)
  else word

/-- lodash `upperFirst`: convert the first character to upper case. -/
def upperFirst : List Char → List Char
  | [] => []
  | c :: t => c.toUpper :: t

/-- A word character for the purposes of splitting compound identifiers. -/
def isWordChar (c : Char) : Bool := c.isAlpha || c.isDigit

/-- Split a character list into its maximal runs of word characters,
dropping the delimiters.  This is how lodash `words` behaves on the
lowercase, delimiter-separated identifiers that occur as table and type
names (the only inputs the script feeds it). -/
def splitWords : List Char → List (List Char)
  | [] => []
  | c :: t =>
    if isWordChar c then
      match splitWords t with
      | [] => [[c]]
      | w :: ws =>
        if (t.head?.map isWordChar).getD false then (c :: w) :: ws
        else [c] :: w :: ws
    else splitWords t

/-- Model of lodash `camelCase` on lowercase delimiter-separated words:
first segment kept as-is, every later segment capitalized, all segments
concatenated. -/
def camelCaseM (s : List Char) : List Char :=
  match splitWords s with
  | [] => []
  | w :: ws => w ++ (ws.map upperFirst).flatten

/-- Modelled from the spec: `toIdentifier` converts a delimiter-separated
lowercase word into PascalCase: split on separators, uppercase the first
letter of each segment, concatenate. -/
def toIdentifier (s : List Char) : List Char :=
  ((splitWords s).map upperFirst).flatten

/-- One row of the enum query: `pg_type.typname as key`,
`pg_enum.enumlabel as value`, plus the derived
`name = upperFirst(camelCase(key))` added by the `.then` mapping. -/
structure EnumRow where
  key : List Char
  name : List Char
  value : List Char
deriving DecidableEq

/-- The reader derives `name` from `key`; rows produced by the script always
satisfy `name = upperFirst (camelCaseM key)`. -/
def mkEnumRow (key value : List Char) : EnumRow :=
  ⟨key, upperFirst (camelCaseM key), value⟩

/-- One row of the `information_schema.columns` query, in declaration order
of the select list; `ordinal` records `ordinal_position`, which the query
sorts by. -/
structure Column where
  table : List Char
  col : List Char
  null : List Char
  type : List Char
  udt : List Char
  ordinal : Nat
deriving DecidableEq

/-- `x.value.replace(/[.-]/g, "_")`: every "." or "-" becomes "_". -/
def sanitize (v : List Char) : List Char :=
  v.map fun c => if c = '.' ∨ c = '-' then '_' else c

/-- The member line pushed for each enum row:
two spaces, sanitized key, ` = "`, the raw value, `",`. -/
def memberLine (v : List Char) : List Char :=
  lc "  " ++ (sanitize v ++ (lc " = \"" ++ (v ++ lc "\",")))

/-- The opening line of an enum block: `export enum <name> {`. -/
def enumHeader (n : List Char) : List Char :=
  lc "export enum " ++ n ++ lc " \x7b"

/-- The closing line of an enum block, `}` followed by an embedded newline
that yields the blank line between blocks once the lines are joined. -/
def enumClose : List Char := lc "\x7d\n"

/-- The type expression of one column (lines 72-87 of the script): the
nested conditional over `data_type`/`udt_name`, with the guarded enum
lookup; when the optional-chain lookup were to miss, the template literal
would render the text `undefined`, which is the `getD` default here. -/
def typeExpr (x : Column) (enums : List EnumRow) : List Char :=
  if x.type = lc "integer" ∨ x.type = lc "numeric" ∨ x.type = lc "decimal" then lc "number"
  else if x.type = lc "boolean" then lc "boolean"
  else if x.type = lc "jsonb" then lc "any"
  else if x.type = lc "ARRAY" ∧ x.udt = lc "_text" then lc "string[]"
  else if (lc "timestamp").isPrefixOf x.type ∨ x.type = lc "date" then lc "Date"
  else if x.type = lc "USER-DEFINED" ∧ enums.any (fun e => e.key == x.udt) then
    ((enums.find? (fun e => e.key == x.udt)).map EnumRow.name).getD (lc "undefined")
  else lc "string"

/-- `const nullable = x.null === "YES" ? " | null" : ""`. -/
def nullSuffix (x : Column) : List Char :=
  if x.null = lc "YES" then lc " | null" else lc ""

/-- The field line pushed for each column: `  <col>: <type><nullable>;`. -/
def fieldLine (enums : List EnumRow) (x : Column) : List Char :=
  lc "  " ++ x.col ++ lc ": " ++ typeExpr x enums ++ nullSuffix x ++ lc ";"

/-- The record type name: `singular(upperFirst(camelCase(x.table)))` - note
the singularization is applied after the PascalCase conversion. -/
def recordName (table : List Char) : List Char :=
  singular (upperFirst (camelCaseM table))

/-- The opening line of a record block: `export type <Name> = {`. -/
def recordHeader (table : List Char) : List Char :=
  lc "export type " ++ recordName table ++ lc " = \x7b"

/-- The closing line of a record block, with the embedded newline. -/
def recordClose : List Char := lc "\x7d;\n"

/-- The skeleton shared by the two `forEach` loops of the script: at each
row, push the header when the previous key differs (`prev` is the key of
the previous row, `none` at the first row, so the strict `!==` against
`undefined` opens a block), push the line of the row, and push the closing
line when the key of the next row differs. -/
def emitAux {α : Type} (key header line : α → List Char) (closeLine : List Char) :
    Option (List Char) → List α → List (List Char)
  | _, [] => []
  | prev, x :: rest =>
    (if prev = some (key x) then [] else [header x]) ++
    [line x] ++
    (if rest.head?.map key = some (key x) then [] else [closeLine]) ++
    emitAux key header line closeLine (some (key x)) rest

/-- The enum `forEach` loop (lines 39-48). -/
def enumLines (enums : List EnumRow) : List (List Char) :=
  emitAux EnumRow.key (fun x => enumHeader x.name) (fun x => memberLine x.value)
    enumClose none enums

/-- The column `forEach` loop (lines 67-92). -/
def recordLines (enums : List EnumRow) (cols : List Column) : List (List Char) :=
  emitAux Column.table (fun x => recordHeader x.table) (fieldLine enums)
    recordClose none cols

/-- The full `lines` array once both loops have run: enum lines first, then
record lines. -/
def genLines (enums : List EnumRow) (cols : List Column) : List (List Char) :=
  enumLines enums ++ recordLines enums cols

/-- The anchor text of the merge regex `/^export default db;([\s\S]+)/m`. -/
def anchorL : List Char := lc "export default db;"

/-- The fixed disclaimer banner of the replacement template, including the
blank lines around it. -/
def bannerL : List Char :=
  lc "\n\n// The TypeScript definitions below are automatically generated.\n// Do not touch them, or risk, your modifications being lost.\n\n"

/-- `lines.join("\n")`. -/
def joinLines (ls : List (List Char)) : List Char := List.intercalate (lc "\n") ls

/-- The text that replaces everything from the anchor onward (the template
re-emits the anchor itself, then the banner, then the joined lines); the
part after the anchor. -/
def replBody (g : List (List Char)) : List Char := bannerL ++ joinLines g

/-- Characters after which a multiline `^` matches in a JavaScript regex
(line terminators; the astral separators U+2028 and U+2029 are included for
completeness). -/
def isLineTerm (c : Char) : Bool :=
  c = '\n' || c = '\r' || c = '\u2028' || c = '\u2029'

/-- Scan for the first match of `/^export default db;([\s\S]+)/m`: a
position at a line start (`atLS`) where the anchor occurs and is followed
by at least one further character (the `+` of the capture group, which then
greedily extends to the end of the text).  On a match the whole tail is
replaced by the template; `none` when the regex does not match, in which
case `String.replace` returns its input unchanged. -/
def mergeScan (g : List (List Char)) : Bool → List Char → Option (List Char)
  | _, [] => none
  | atLS, c :: t =>
    if atLS ∧ anchorL.isPrefixOf (c :: t) ∧ anchorL.length < (c :: t).length then
      some (anchorL ++ replBody g)
    else (mergeScan g (isLineTerm c) t).map (c :: ·)

/-- `source.replace(regex, template)`: the replaced text on a match, the
original text otherwise. -/
def merge (g : List (List Char)) (src : List Char) : List Char :=
  (mergeScan g true src).getD src

/-- The read-replace-write tail of `updateTypes` (lines 94-107):
`writeFileSync` is called unconditionally, so the Bool recording that a
write happened is always `true`. -/
def updateFile (g : List (List Char)) (src : List Char) : List Char × Bool :=
  (merge g src, true)

/-- Whether the anchor occurs anywhere at a line start of the text
(regardless of whether anything follows it). -/
def hasAnchor : Bool → List Char → Bool
  | _, [] => false
  | atLS, c :: t =>
    (atLS && anchorL.isPrefixOf (c :: t)) || hasAnchor (isLineTerm c) t

/-- Observable events of one process run. -/
inductive RunEvent where
  | writeFile
  | consoleError
  | processExit (code : Nat)
  | dbDestroy
deriving DecidableEq

/-- Model of the top level `updateTypes().catch(...).finally(() => db.destroy())`
(lines 109-114) under Node semantics: when `updateTypes()` rejects, the
`catch` handler runs `console.error(err)` and then `process.exit(1)`;
`process.exit` terminates the process immediately, so the `finally`
callback - and with it `db.destroy()` - never runs.  When `updateTypes()`
resolves, the `catch` handler is skipped and the `finally` callback runs
`db.destroy()`. -/
def topLevelRun (updateTypesRejects : Bool) : List RunEvent :=
  if updateTypesRejects then [RunEvent.consoleError, RunEvent.processExit 1]
  else [RunEvent.writeFile, RunEvent.dbDestroy]

/-- Grouping of an ordered sequence into maximal runs sharing a key: the
explicit form of the boundary detection performed by the two loops. -/
def groupRunsBy {α : Type} (key : α → List Char) : List α → List (List α)
  | [] => []
  | x :: xs =>
    match groupRunsBy key xs with
    | [] => [[x]]
    | g :: gs =>
      if g.head?.map key = some (key x) then (x :: g) :: gs else [x] :: g :: gs

/-- The key of the first row of a group (`[]` for an empty group, which
never occurs among the groups produced by `groupRunsBy`). -/
def headKey {α : Type} (key : α → List Char) (g : List α) : List Char :=
  (g.head?.map key).getD []

/-- Rendering of one declaration block from its group of rows: header line
of the first row, one line per row, closing line. -/
def renderBlock {α : Type} (header line : α → List Char) (closeLine : List Char) :
    List α → List (List Char)
  | [] => []
  | x :: rest => header x :: (x :: rest).map line ++ [closeLine]

/-- One rendered enum block. -/
def renderEnumBlock (g : List EnumRow) : List (List Char) :=
  renderBlock (fun x => enumHeader x.name) (fun x => memberLine x.value) enumClose g

/-- One rendered record block. -/
def renderRecordBlock (enums : List EnumRow) (g : List Column) : List (List Char) :=
  renderBlock (fun x => recordHeader x.table) (fieldLine enums) recordClose g

/-- Modelled from the spec: the seven-rule precedence table of section 4.3,
with rule 6 producing the displayName of the matched enum definition, a
PascalCase identifier derived from the type key with `toIdentifier`. -/
def specTypeExpr (x : Column) (enums : List EnumRow) : List Char :=
  if x.type = lc "integer" ∨ x.type = lc "numeric" ∨ x.type = lc "decimal" then lc "number"
  else if x.type = lc "boolean" then lc "boolean"
  else if x.type = lc "jsonb" then lc "any"
  else if x.type = lc "ARRAY" ∧ x.udt = lc "_text" then lc "string[]"
  else if (lc "timestamp").isPrefixOf x.type ∨ x.type = lc "date" then lc "Date"
  else if x.type = lc "USER-DEFINED" ∧ (∃ e ∈ enums, e.key = x.udt) then
    toIdentifier x.udt
  else lc "string"

/-- Sort relation of the column query: ascending table name, then ascending
ordinal position. -/
def colLe (a b : Column) : Prop :=
  a.table < b.table ∨ (a.table = b.table ∧ a.ordinal ≤ b.ordinal)

-- ## Name transformation lemmas

theorem splitWords_ne_nil (s : List Char) : ∀ w ∈ splitWords s, w ≠ [] := by
  induction s with
  | nil => intro w hw; simp [splitWords] at hw
  | cons c t ih =>
    intro w hw
    simp only [splitWords] at hw
    by_cases hc : isWordChar c
    · rw [if_pos hc] at hw
      rcases hgs : splitWords t with _ | ⟨g, gs⟩
      · rw [hgs] at hw
        simp at hw
        simp [hw]
      · rw [hgs] at hw
        split_ifs at hw
        · rcases List.mem_cons.mp hw with h | h
          · simp [h]
          · exact ih w (hgs ▸ List.mem_cons_of_mem g h)
        · rcases List.mem_cons.mp hw with h | h
          · simp [h]
          · exact ih w (hgs ▸ h)
    · rw [if_neg hc] at hw
      exact ih w hw

theorem upperFirst_camelCase (s : List Char) :
    upperFirst (camelCaseM s) = toIdentifier s := by
  unfold camelCaseM toIdentifier
  rcases h : splitWords s with _ | ⟨w, ws⟩
  · rfl
  · have hw : w ≠ [] := splitWords_ne_nil s w (h ▸ List.mem_cons_self w ws)
    rcases w with _ | ⟨c, cs⟩
    · exact absurd rfl hw
    · simp [upperFirst]

-- ## C5: singularization unit laws

/-- C5 counterexample: the singularization of "addresses" produced by the
code is "addressy" (rule 2 replaces the trailing "es" by "y"), not the
"addres" stated by the claim. -/
theorem singular_addresses_counterexample :
    singular (lc "addresses") = lc "addressy" ∧ lc "addressy" ≠ lc "addres" := by
  decide

/-- C5 (amended): the unit laws of `singular` as the code computes them:
"categories" to "category", "addresses" to "addressy", "users" to "user",
and "data" unchanged. -/
theorem singular_unit_laws :
    singular (lc "categories") = lc "category" ∧
    singular (lc "addresses") = lc "addressy" ∧
    singular (lc "users") = lc "user" ∧
    singular (lc "data") = lc "data" := by
  decide

-- ## C4: order of singularization and PascalCase conversion

/-- C4 counterexample: the emitted record name is not
`toIdentifier(singularize(table))`; on the table name "order_ies" the code
produces "OrderIy" while the claimed composition produces "OrderY". -/
theorem recordName_order_counterexample :
    recordName (lc "order_ies") ≠ toIdentifier (singular (lc "order_ies")) ∧
    recordName (lc "order_ies") = lc "OrderIy" ∧
    toIdentifier (singular (lc "order_ies")) = lc "OrderY" := by
  decide

/-- C4 (amended): the record declaration name applies the PascalCase
conversion first and the singularization chain second:
`recordName table = singularize(toIdentifier(table))`. -/
theorem recordName_singularizes_identifier (table : List Char) :
    recordName table = singular (toIdentifier table) := by
  unfold recordName
  rw [upperFirst_camelCase]

-- ## C1: behaviour when the anchor is absent

theorem hasAnchor_false_scan (g : List (List Char)) :
    ∀ (s : List Char) (b : Bool), hasAnchor b s = false → mergeScan g b s = none := by
  intro s
  induction s with
  | nil => intro b _; rfl
  | cons c t ih =>
    intro b hb
    rw [hasAnchor] at hb
    have h2 : hasAnchor (isLineTerm c) t = false := by
      cases h : hasAnchor (isLineTerm c) t
      · rfl
      · rw [h] at hb; simp at hb
    have h1 : (b && anchorL.isPrefixOf (c :: t)) = false := by
      cases h : (b && anchorL.isPrefixOf (c :: t))
      · rfl
      · rw [h] at hb; simp at hb
    simp only [mergeScan]
    split_ifs with hcond
    · obtain ⟨hb', hpre, -⟩ := hcond
      rw [hb', hpre] at h1
      simp at h1
    · rw [ih (isLineTerm c) h2]
      rfl

/-- C1 counterexample: on a target text without the anchor, the merge does
not fail and the write is still performed (the second component of
`updateFile` records the unconditional `writeFileSync` call); the claim
that a `MergeError` is raised and no write happens is false. -/
theorem merge_absent_anchor_counterexample :
    hasAnchor true (lc "hello") = false ∧
    updateFile [] (lc "hello") = (lc "hello", true) := by
  decide

/-- C1 (amended): if the anchor line is absent from the target text, the
regex does not match, no error is raised (the replace is total), the file
is still written, and the written text is the original text unchanged. -/
theorem merge_absent_preserves (g : List (List Char)) (src : List Char)
    (h : hasAnchor true src = false) :
    updateFile g src = (src, true) := by
  unfold updateFile merge
  rw [hasAnchor_false_scan g src true h]
  rfl

/-- C1 witness. -/
theorem merge_absent_preserves_witness :
    hasAnchor true (lc "// no anchor\nconst x = 1;") = false ∧
    updateFile [lc "line"] (lc "// no anchor\nconst x = 1;") =
      (lc "// no anchor\nconst x = 1;", true) :=
  ⟨by decide,
    merge_absent_preserves [lc "line"] (lc "// no anchor\nconst x = 1;") (by decide)⟩

-- ## C7: connection release

/-- C7: evaluation of the run model at both outcomes: on a failed run the
process exits from inside the catch handler and the dbDestroy event never
occurs, so the catalog connection is not released; on a successful run it
is. -/
theorem destroy_skipped_on_failure :
    RunEvent.dbDestroy ∉ topLevelRun true ∧
    topLevelRun true = [RunEvent.consoleError, RunEvent.processExit 1] ∧
    RunEvent.dbDestroy ∈ topLevelRun false := by
  decide

-- ## C2 and C9: the type mapper

theorem typeExpr_user_defined (x : Column) (enums : List EnumRow)
    (h1 : x.type = lc "USER-DEFINED") :
    typeExpr x enums =
      if enums.any (fun e => e.key == x.udt) then
        ((enums.find? (fun e => e.key == x.udt)).map EnumRow.name).getD (lc "undefined")
      else lc "string" := by
  unfold typeExpr
  rw [h1]
  rw [if_neg (by decide), if_neg (by decide), if_neg (by decide)]
  rw [if_neg (fun hc => absurd hc.1 (by decide))]
  rw [if_neg (by decide)]
  by_cases hany : enums.any (fun e => e.key == x.udt) = true
  · rw [if_pos ⟨rfl, hany⟩, if_pos hany]
  · rw [if_neg (fun hc => hany hc.2), if_neg hany]

/-- C9: for a USER-DEFINED column whose udt name equals the key of some row
of the resolved enum set, the guarded lookup always succeeds: `find?`
returns a matching row and the emitted type expression is the name of that
row, never the absent-lookup fallback. -/
theorem enum_lookup_safe (x : Column) (enums : List EnumRow)
    (h1 : x.type = lc "USER-DEFINED") (h2 : ∃ r ∈ enums, r.key = x.udt) :
    ∃ r, enums.find? (fun e => e.key == x.udt) = some r ∧ r ∈ enums ∧
      r.key = x.udt ∧ typeExpr x enums = r.name := by
  have hany : enums.any (fun e => e.key == x.udt) = true := by
    rw [List.any_eq_true]
    obtain ⟨r, hr, hk⟩ := h2
    exact ⟨r, hr, by simp [hk]⟩
  have hsome : (enums.find? (fun e => e.key == x.udt)).isSome := by
    rw [List.find?_isSome]
    rw [List.any_eq_true] at hany
    exact hany
  obtain ⟨r, hfind⟩ := Option.isSome_iff_exists.mp hsome
  refine ⟨r, hfind, List.mem_of_find?_eq_some hfind, ?_, ?_⟩
  · have hr := List.find?_some hfind
    simpa using hr
  · rw [typeExpr_user_defined x enums h1, if_pos hany, hfind]
    rfl

/-- Concrete column used to witness C9. -/
def colC9 : Column := ⟨lc "invoices", lc "status", lc "NO", lc "USER-DEFINED", lc "status_type", 2⟩

/-- Concrete enum catalog used to witness C9. -/
def enumsC9 : List EnumRow := [mkEnumRow (lc "status_type") (lc "active")]

/-- C9 witness. -/
theorem enum_lookup_safe_witness :
    (colC9.type = lc "USER-DEFINED" ∧ ∃ r ∈ enumsC9, r.key = colC9.udt) ∧
    ∃ r, enumsC9.find? (fun e => e.key == colC9.udt) = some r ∧ r ∈ enumsC9 ∧
      r.key = colC9.udt ∧ typeExpr colC9 enumsC9 = r.name :=
  ⟨⟨by decide, by decide⟩, enum_lookup_safe colC9 enumsC9 (by decide) (by decide)⟩

/-- C2: the code type expression agrees with the seven-rule precedence
table of the spec, and the null union is appended exactly when the column
is nullable (`is_nullable = "YES"`).  The hypothesis states that the enum
rows carry the reader-derived display names, which holds for every row the
reader constructs (see `mkEnumRow`). -/
theorem typeMapper_matches_spec (x : Column) (enums : List EnumRow)
    (hn : ∀ e ∈ enums, e.name = toIdentifier e.key) :
    typeExpr x enums = specTypeExpr x enums ∧
    (x.null = lc "YES" →
      typeExpr x enums ++ nullSuffix x = specTypeExpr x enums ++ lc " | null") ∧
    (x.null ≠ lc "YES" → typeExpr x enums ++ nullSuffix x = specTypeExpr x enums) := by
  have hiff : (∃ e ∈ enums, e.key = x.udt) = (enums.any (fun e => e.key == x.udt) = true) := by
    rw [List.any_eq_true]
    apply propext
    constructor
    · rintro ⟨e, he, hk⟩; exact ⟨e, he, by simp [hk]⟩
    · rintro ⟨e, he, hk⟩; exact ⟨e, he, by simpa using hk⟩
  have hmain : typeExpr x enums = specTypeExpr x enums := by
    unfold typeExpr specTypeExpr
    simp only [hiff]
    split_ifs with h1 h2 h3 h4 h5 h6
    · rfl
    · rfl
    · rfl
    · rfl
    · rfl
    · obtain ⟨-, hany⟩ := h6
      rcases hfind : enums.find? (fun e => e.key == x.udt) with _ | r
      · rw [List.any_eq_true] at hany
        obtain ⟨e, he, hk⟩ := hany
        rw [List.find?_eq_none] at hfind
        exact absurd hk (hfind e he)
      · have hr := List.find?_some hfind
        have hmem := List.mem_of_find?_eq_some hfind
        have hku : r.key = x.udt := by simpa using hr
        rw [hfind]
        simp [hn r hmem, hku]
    · rfl
  have hemp : lc "" = ([] : List Char) := rfl
  refine ⟨hmain, ?_, ?_⟩
  · intro hy
    rw [hmain, nullSuffix, if_pos hy]
  · intro hy
    rw [hmain, nullSuffix, if_neg hy, hemp, List.append_nil]

/-- Concrete column used to witness C2. -/
def colC2 : Column := ⟨lc "invoices", lc "amount", lc "YES", lc "numeric", lc "numeric", 3⟩

/-- Concrete enum catalog used to witness C2. -/
def enumsC2 : List EnumRow := [mkEnumRow (lc "status_type") (lc "active")]

/-- C2 witness. -/
theorem typeMapper_matches_spec_witness :
    (∀ e ∈ enumsC2, e.name = toIdentifier e.key) ∧
    (typeExpr colC2 enumsC2 = specTypeExpr colC2 enumsC2 ∧
      (colC2.null = lc "YES" →
        typeExpr colC2 enumsC2 ++ nullSuffix colC2 = specTypeExpr colC2 enumsC2 ++ lc " | null") ∧
      (colC2.null ≠ lc "YES" →
        typeExpr colC2 enumsC2 ++ nullSuffix colC2 = specTypeExpr colC2 enumsC2)) :=
  ⟨by decide, typeMapper_matches_spec colC2 enumsC2 (by decide)⟩

-- ## C10: one member line per row, no deduplication

theorem emitAux_filter {α : Type} (key header line : α → List Char)
    (closeLine : List Char) (p : List Char → Bool)
    (hline : ∀ x, p (line x) = true) (hheader : ∀ x, p (header x) = false)
    (hclose : p closeLine = false) :
    ∀ (prev : Option (List Char)) (rows : List α),
      (emitAux key header line closeLine prev rows).filter p = rows.map line := by
  intro prev rows
  induction rows generalizing prev with
  | nil => rfl
  | cons x rest ih =>
    simp only [emitAux, List.filter_append]
    rw [ih (some (key x))]
    split_ifs with h1 h2 <;>
      simp [List.filter_cons, List.filter_nil, hline x, hheader x, hclose]

/-- C10: the enum emitter emits exactly one member line per input row with
no deduplication (the member lines of the output, in order, are exactly the
memberLine images of the rows); memberLine is injective, so rows with
distinct raw values always yield distinct lines even when their sanitized
keys collide; and on the concrete colliding pair "a.b" / "a-b" the single
block contains both member lines, with the same sanitized key and the two
distinct raw literals. -/
theorem enum_member_no_dedup :
    (∀ rows : List EnumRow,
        (enumLines rows).filter (fun l => (lc "  ").isPrefixOf l) =
          rows.map (fun r => memberLine r.value)) ∧
    (∀ v w : List Char, memberLine v = memberLine w → v = w) ∧
    (sanitize (lc "a.b") = sanitize (lc "a-b") ∧ lc "a.b" ≠ lc "a-b" ∧
      enumLines [⟨lc "t", lc "T", lc "a.b"⟩, ⟨lc "t", lc "T", lc "a-b"⟩] =
        [enumHeader (lc "T"), memberLine (lc "a.b"), memberLine (lc "a-b"), enumClose]) := by
  refine ⟨?_, ?_, by decide⟩
  · intro rows
    apply emitAux_filter
    · intro x
      unfold memberLine
      rw [List.isPrefixOf_iff_prefix]
      exact List.prefix_append _ _
    · intro x
      rfl
    · rfl
  · intro v w h
    have hlen : v.length = w.length := by
      have hl := congrArg List.length h
      simp only [memberLine, sanitize, List.length_append, List.length_map] at hl
      omega
    unfold memberLine at h
    have h1 := List.append_cancel_left h
    have hsl : (sanitize v).length = (sanitize w).length := by
      simp [sanitize, hlen]
    obtain ⟨-, h2⟩ := List.append_inj h1 hsl
    have h3 := List.append_cancel_left h2
    exact List.append_cancel_right h3

/-- C10 witness: the injectivity component applied at a concrete input. -/
theorem enum_member_no_dedup_witness :
    memberLine (lc "a.b") = memberLine (lc "a.b") ∧ lc "a.b" = lc "a.b" :=
  ⟨rfl, enum_member_no_dedup.2.1 (lc "a.b") (lc "a.b") rfl⟩


-- ## Grouping lemmas

theorem groupRunsBy_eq_nil {α : Type} (key : α → List Char) (l : List α) :
    groupRunsBy key l = [] ↔ l = [] := by
  cases l with
  | nil => simp [groupRunsBy]
  | cons x xs =>
    rcases hgs : groupRunsBy key xs with _ | ⟨g0, gs⟩ <;>
      simp only [groupRunsBy, hgs]
    · simp
    · split_ifs <;> simp

theorem groupRunsBy_flatten {α : Type} (key : α → List Char) (l : List α) :
    (groupRunsBy key l).flatten = l := by
  induction l with
  | nil => rfl
  | cons x xs ih =>
    rcases hgs : groupRunsBy key xs with _ | ⟨g0, gs⟩ <;>
      rw [hgs] at ih <;> simp only [groupRunsBy, hgs]
    · simp only [List.flatten_nil] at ih
      simp [← ih]
    · split_ifs with h
      · simp only [List.flatten_cons] at ih ⊢
        simp [ih]
      · simp only [List.flatten_cons] at ih ⊢
        simp [ih]

theorem groupRunsBy_ne_nil {α : Type} (key : α → List Char) (l : List α) :
    ∀ g ∈ groupRunsBy key l, g ≠ [] := by
  induction l with
  | nil => intro g hg; simp [groupRunsBy] at hg
  | cons x xs ih =>
    intro g hg
    rcases hgs : groupRunsBy key xs with _ | ⟨g0, gs⟩ <;>
      simp only [groupRunsBy, hgs] at hg
    · simp at hg
      simp [hg]
    · split_ifs at hg with h
      · rcases List.mem_cons.mp hg with h1 | h1
        · simp [h1]
        · exact ih g (hgs ▸ List.mem_cons_of_mem g0 h1)
      · rcases List.mem_cons.mp hg with h1 | h1
        · simp [h1]
        · exact ih g (hgs ▸ h1)

theorem groupRunsBy_head {α : Type} (key : α → List Char) (l : List α)
    (g : List α) (gs : List (List α)) (h : groupRunsBy key l = g :: gs) :
    l.head? = g.head? := by
  have hfl := groupRunsBy_flatten key l
  rw [h] at hfl
  have hne := groupRunsBy_ne_nil key l g (h ▸ List.mem_cons_self g gs)
  cases g with
  | nil => exact absurd rfl hne
  | cons a g0 =>
    rw [← hfl]
    simp

theorem groupRunsBy_key_const {α : Type} (key : α → List Char) (l : List α) :
    ∀ g ∈ groupRunsBy key l, ∀ a ∈ g, key a = headKey key g := by
  induction l with
  | nil => intro g hg; simp [groupRunsBy] at hg
  | cons x xs ih =>
    intro g hg a ha
    rcases hgs : groupRunsBy key xs with _ | ⟨g0, gs⟩ <;>
      simp only [groupRunsBy, hgs] at hg
    · simp at hg
      subst hg
      simp at ha
      subst ha
      rfl
    · split_ifs at hg with h
      · rcases List.mem_cons.mp hg with h1 | h1
        · subst h1
          rcases List.mem_cons.mp ha with h2 | h2
          · subst h2; rfl
          · have hk := ih g0 (hgs ▸ List.mem_cons_self g0 gs) a h2
            simp only [headKey] at hk ⊢
            rw [h] at hk
            simpa using hk
        · exact ih g (hgs ▸ List.mem_cons_of_mem g0 h1) a ha
      · rcases List.mem_cons.mp hg with h1 | h1
        · subst h1
          simp at ha
          subst ha
          rfl
        · exact ih g (hgs ▸ h1) a ha

theorem groupRunsBy_heads_sublist {α : Type} (key : α → List Char) (l : List α) :
    List.Sublist ((groupRunsBy key l).map (headKey key)) (l.map key) := by
  induction l with
  | nil => simp [groupRunsBy]
  | cons x xs ih =>
    rcases hgs : groupRunsBy key xs with _ | ⟨g0, gs⟩ <;>
      rw [hgs] at ih <;> simp only [groupRunsBy, hgs]
    · simp only [List.map_cons, List.map_nil]
      exact (List.nil_sublist _).cons₂ _
    · split_ifs with h
      · simp only [List.map_cons] at ih ⊢
        have hh : headKey key (x :: g0) = key x := by simp [headKey]
        rw [hh]
        exact (List.sublist_of_cons_sublist ih).cons₂ _
      · simp only [List.map_cons] at ih ⊢
        have hh : headKey key [x] = key x := by simp [headKey]
        rw [hh]
        exact ih.cons₂ _

theorem groupRunsBy_heads_mem {α : Type} (key : α → List Char) (l : List α) (κ : List Char) :
    κ ∈ (groupRunsBy key l).map (headKey key) ↔ κ ∈ l.map key := by
  constructor
  · intro h
    obtain ⟨g, hg, hk⟩ := List.mem_map.mp h
    have hne := groupRunsBy_ne_nil key l g hg
    cases g with
    | nil => exact absurd rfl hne
    | cons a g0 =>
      have ha : a ∈ l := by
        rw [← groupRunsBy_flatten key l]
        exact List.mem_flatten.mpr ⟨a :: g0, hg, List.mem_cons_self a g0⟩
      have hka : key a = headKey key (a :: g0) := by simp [headKey]
      exact List.mem_map.mpr ⟨a, ha, by rw [hka, hk]⟩
  · intro h
    obtain ⟨a, ha, hk⟩ := List.mem_map.mp h
    have ha' : a ∈ (groupRunsBy key l).flatten := by
      rw [groupRunsBy_flatten]
      exact ha
    obtain ⟨g, hg, hag⟩ := List.mem_flatten.mp ha'
    have hkc := groupRunsBy_key_const key l g hg a hag
    exact List.mem_map.mpr ⟨g, hg, by rw [← hkc, hk]⟩

theorem pairwise_le_mem_head (a : List Char) (m : List (List Char))
    (hp : (a :: m).Pairwise (· ≤ ·)) (ha : a ∈ m) : m.head? = some a := by
  cases m with
  | nil => simp at ha
  | cons b m0 =>
    rcases List.mem_cons.mp ha with h | h
    · simp [h]
    · have hab : a ≤ b := (List.pairwise_cons.mp hp).1 b (List.mem_cons_self b m0)
      have hba : b ≤ a :=
        (List.pairwise_cons.mp (List.pairwise_cons.mp hp).2).1 a h
      rw [show a = b from le_antisymm hab hba]
      rfl

theorem groupRunsBy_heads_nodup {α : Type} (key : α → List Char) (l : List α)
    (hs : (l.map key).Pairwise (· ≤ ·)) :
    ((groupRunsBy key l).map (headKey key)).Nodup := by
  induction l with
  | nil => simp [groupRunsBy]
  | cons x xs ih =>
    have hs' : (xs.map key).Pairwise (· ≤ ·) := by
      rw [List.map_cons] at hs
      exact (List.pairwise_cons.mp hs).2
    rcases hgs : groupRunsBy key xs with _ | ⟨g0, gs⟩ <;>
      rw [hgs] at ih <;> simp only [groupRunsBy, hgs]
    · simp
    · split_ifs with h
      · have h0 : headKey key (x :: g0) = headKey key g0 := by
          simp only [headKey, List.head?_cons, Option.map_some']
          rw [h]
        simp only [List.map_cons] at ih ⊢
        rw [h0]
        exact ih hs'
      · simp only [List.map_cons, List.nodup_cons] at ih ⊢
        refine ⟨?_, ih hs'⟩
        have hh : headKey key [x] = key x := by simp [headKey]
        rw [hh]
        intro hmem
        have hmem' : key x ∈ (groupRunsBy key xs).map (headKey key) := by
          rw [hgs, List.map_cons]
          exact hmem
        have hxs : key x ∈ xs.map key := (groupRunsBy_heads_mem key xs (key x)).mp hmem'
        have hhead : (xs.map key).head? = some (key x) := by
          apply pairwise_le_mem_head (key x) (xs.map key) _ hxs
          rw [← List.map_cons]
          exact hs
        rw [List.head?_map] at hhead
        have hg0 : xs.head? = g0.head? := groupRunsBy_head key xs g0 gs hgs
        rw [hg0] at hhead
        exact h hhead

theorem groupRunsBy_length_distinct {α : Type} (key : α → List Char) (l : List α)
    (hs : (l.map key).Pairwise (· ≤ ·)) :
    (groupRunsBy key l).length = (l.map key).toFinset.card := by
  have hnd := groupRunsBy_heads_nodup key l hs
  rw [← List.length_map (groupRunsBy key l) (headKey key),
    ← List.toFinset_card_of_nodup hnd]
  congr 1
  apply Finset.ext
  intro κ
  simp only [List.mem_toFinset]
  exact groupRunsBy_heads_mem key l κ

theorem groupRunsBy_filter {α : Type} (key : α → List Char) (l : List α)
    (hs : (l.map key).Pairwise (· ≤ ·)) :
    ∀ g ∈ groupRunsBy key l, l.filter (fun a => key a == headKey key g) = g := by
  intro g hg
  have hnd := groupRunsBy_heads_nodup key l hs
  obtain ⟨pre, post, hdecomp⟩ := List.append_of_mem hg
  have hflat := groupRunsBy_flatten key l
  rw [hdecomp] at hflat hnd
  rw [List.map_append, List.map_cons, List.nodup_append] at hnd
  obtain ⟨-, hnd2, hdisj⟩ := hnd
  have hkpre : headKey key g ∉ pre.map (headKey key) := fun hmem =>
    (hdisj hmem) (List.mem_cons_self _ _)
  have hkpost : headKey key g ∉ post.map (headKey key) := (List.nodup_cons.mp hnd2).1
  rw [← hflat, List.flatten_append, List.flatten_cons]
  rw [List.filter_append, List.filter_append]
  have hpre : (pre.flatten.filter fun a => key a == headKey key g) = [] := by
    rw [List.filter_eq_nil_iff]
    intro a ha
    obtain ⟨g', hg', hag'⟩ := List.mem_flatten.mp ha
    have hkey := groupRunsBy_key_const key l g'
      (hdecomp ▸ List.mem_append_left _ hg') a hag'
    have hne : headKey key g' ≠ headKey key g := fun he =>
      hkpre (he ▸ List.mem_map_of_mem (headKey key) hg')
    simp [hkey, hne]
  have hpost : (post.flatten.filter fun a => key a == headKey key g) = [] := by
    rw [List.filter_eq_nil_iff]
    intro a ha
    obtain ⟨g', hg', hag'⟩ := List.mem_flatten.mp ha
    have hg'mem : g' ∈ groupRunsBy key l := by
      rw [hdecomp]
      exact List.mem_append_right _ (List.mem_cons_of_mem _ hg')
    have hkey := groupRunsBy_key_const key l g' hg'mem a hag'
    have hne : headKey key g' ≠ headKey key g := fun he =>
      hkpost (he ▸ List.mem_map_of_mem (headKey key) hg')
    simp [hkey, hne]
  have hself : (g.filter fun a => key a == headKey key g) = g := by
    rw [List.filter_eq_self]
    intro a ha
    simp [groupRunsBy_key_const key l g hg a ha]
  rw [hpre, hpost, hself]
  simp

-- ## Loop-to-blocks equivalence

theorem emitAux_some {α : Type} (key header line : α → List Char) (closeLine : List Char)
    (κ : List Char) (l : List α) :
    emitAux key header line closeLine (some κ) l =
      if l.head?.map key = some κ then
        (emitAux key header line closeLine none l).tail
      else emitAux key header line closeLine none l := by
  cases l with
  | nil => simp [emitAux]
  | cons x rest =>
    by_cases h : key x = κ
    · subst h
      simp [emitAux]
    · have h1 : ¬(some κ = some (key x)) := fun he => h (Option.some.inj he).symm
      have h2 : ¬((x :: rest).head?.map key = some κ) := by
        simp only [List.head?_cons, Option.map_some']
        exact fun he => h (Option.some.inj he)
      simp only [emitAux, if_neg h1, if_neg h2]
      simp

theorem emitAux_eq_blocks {α : Type} (key header line : α → List Char) (closeLine : List Char)
    (l : List α) :
    emitAux key header line closeLine none l =
      ((groupRunsBy key l).map (renderBlock header line closeLine)).flatten := by
  induction l with
  | nil => rfl
  | cons x rest ih =>
    rcases hgs : groupRunsBy key rest with _ | ⟨g0, gs⟩ <;>
      rw [hgs] at ih <;> simp only [groupRunsBy, hgs]
    · have hrest : rest = [] := (groupRunsBy_eq_nil key rest).mp hgs
      subst hrest
      simp [emitAux, renderBlock]
    · have hhead : rest.head? = g0.head? := groupRunsBy_head key rest g0 gs hgs
      have hg0ne : g0 ≠ [] := groupRunsBy_ne_nil key rest g0 (hgs ▸ List.mem_cons_self g0 gs)
      cases g0 with
      | nil => exact absurd rfl hg0ne
      | cons y g1 =>
        have hsome := emitAux_some key header line closeLine (key x) rest
        rw [hhead] at hsome
        simp only [List.head?_cons, Option.map_some'] at hsome
        have hnone : ¬((none : Option (List Char)) = some (key x)) := by simp
        by_cases h : key y = key x
        · have hc : Option.map key (y :: g1).head? = some (key x) := by simp [h]
          rw [if_pos hc]
          show (if (none : Option (List Char)) = some (key x) then ([] : List (List Char))
              else [header x]) ++
            [line x] ++
            (if rest.head?.map key = some (key x) then ([] : List (List Char)) else [closeLine]) ++
            emitAux key header line closeLine (some (key x)) rest =
            (List.map (renderBlock header line closeLine) ((x :: y :: g1) :: gs)).flatten
          have hc2 : rest.head?.map key = some (key x) := by rw [hhead]; exact hc
          rw [if_neg hnone, if_pos hc2, hsome, if_pos (by rw [h]), ih]
          simp [renderBlock]
        · have hc : ¬(Option.map key (y :: g1).head? = some (key x)) := by simp [h]
          rw [if_neg hc]
          show (if (none : Option (List Char)) = some (key x) then ([] : List (List Char))
              else [header x]) ++
            [line x] ++
            (if rest.head?.map key = some (key x) then ([] : List (List Char)) else [closeLine]) ++
            emitAux key header line closeLine (some (key x)) rest =
            (List.map (renderBlock header line closeLine) ([x] :: (y :: g1) :: gs)).flatten
          have hne : ¬(some (key y) = some (key x)) := fun he => h (Option.some.inj he)
          have hc2 : ¬(rest.head?.map key = some (key x)) := by rw [hhead]; exact hc
          rw [if_neg hnone, if_neg hc2, hsome, if_neg hne, ih]
          simp [renderBlock]

-- ## C3: enum emitter grouping

/-- C3: for a typeKey-sorted enum row sequence the emitter output is the
concatenation of one rendered block per maximal run of equal keys: the
blocks partition the rows in order, there are exactly as many blocks as
distinct typeKey values, the block head keys are distinct, form a
subsequence of the row keys (hence first-appearance order) and cover
exactly the keys that occur, and each block consists exactly of the rows
whose typeKey matches its key, in original order; the member-line format
(sanitized raw value as key, raw value as literal) is fixed by
renderEnumBlock and memberLine. -/
theorem enum_emitter_grouping (rows : List EnumRow)
    (hs : rows.Pairwise (fun a b => a.key ≤ b.key)) :
    enumLines rows = ((groupRunsBy EnumRow.key rows).map renderEnumBlock).flatten ∧
    (groupRunsBy EnumRow.key rows).flatten = rows ∧
    (groupRunsBy EnumRow.key rows).length = (rows.map EnumRow.key).toFinset.card ∧
    ((groupRunsBy EnumRow.key rows).map (headKey EnumRow.key)).Nodup ∧
    List.Sublist ((groupRunsBy EnumRow.key rows).map (headKey EnumRow.key))
      (rows.map EnumRow.key) ∧
    (∀ κ, κ ∈ (groupRunsBy EnumRow.key rows).map (headKey EnumRow.key) ↔
      κ ∈ rows.map EnumRow.key) ∧
    (∀ g ∈ groupRunsBy EnumRow.key rows,
      rows.filter (fun r => r.key == headKey EnumRow.key g) = g) := by
  have hsm : (rows.map EnumRow.key).Pairwise (· ≤ ·) := by
    rw [List.pairwise_map]
    exact hs
  exact ⟨emitAux_eq_blocks EnumRow.key (fun x => enumHeader x.name)
      (fun x => memberLine x.value) enumClose rows,
    groupRunsBy_flatten EnumRow.key rows,
    groupRunsBy_length_distinct EnumRow.key rows hsm,
    groupRunsBy_heads_nodup EnumRow.key rows hsm,
    groupRunsBy_heads_sublist EnumRow.key rows,
    fun κ => groupRunsBy_heads_mem EnumRow.key rows κ,
    fun g hg => groupRunsBy_filter EnumRow.key rows hsm g hg⟩

/-- Concrete enum rows used to witness C3: two keys, three rows. -/
def rowsC3 : List EnumRow :=
  [⟨lc "color", lc "Color", lc "blue"⟩, ⟨lc "color", lc "Color", lc "red"⟩,
   ⟨lc "status", lc "Status", lc "done"⟩]

/-- C3 witness. -/
theorem enum_emitter_grouping_witness :
    rowsC3.Pairwise (fun a b => a.key ≤ b.key) ∧
    (enumLines rowsC3 = ((groupRunsBy EnumRow.key rowsC3).map renderEnumBlock).flatten ∧
      (groupRunsBy EnumRow.key rowsC3).flatten = rowsC3 ∧
      (groupRunsBy EnumRow.key rowsC3).length = (rowsC3.map EnumRow.key).toFinset.card ∧
      ((groupRunsBy EnumRow.key rowsC3).map (headKey EnumRow.key)).Nodup ∧
      List.Sublist ((groupRunsBy EnumRow.key rowsC3).map (headKey EnumRow.key))
        (rowsC3.map EnumRow.key) ∧
      (∀ κ, κ ∈ (groupRunsBy EnumRow.key rowsC3).map (headKey EnumRow.key) ↔
        κ ∈ rowsC3.map EnumRow.key) ∧
      (∀ g ∈ groupRunsBy EnumRow.key rowsC3,
        rowsC3.filter (fun r => r.key == headKey EnumRow.key g) = g)) :=
  ⟨by decide, enum_emitter_grouping rowsC3 (by decide)⟩

-- ## C6: document ordering

/-- C6: for a (table, ordinal)-sorted column sequence, the generated lines
put all enum lines before all record lines; the record lines are one
rendered block per table; the block head tables are strictly ascending;
the rows of each block are in ascending ordinal order; and every rendered
record or enum block ends with its closing line, whose embedded newline
produces the blank line terminating the block in the joined text. -/
theorem document_ordering (enums : List EnumRow) (cols : List Column)
    (hc : cols.Pairwise colLe) :
    genLines enums cols = enumLines enums ++ recordLines enums cols ∧
    recordLines enums cols =
      ((groupRunsBy Column.table cols).map (renderRecordBlock enums)).flatten ∧
    ((groupRunsBy Column.table cols).map (headKey Column.table)).Pairwise (· < ·) ∧
    (∀ g ∈ groupRunsBy Column.table cols,
      g.Pairwise (fun a b => a.ordinal ≤ b.ordinal)) ∧
    (∀ g ∈ groupRunsBy Column.table cols,
      (renderRecordBlock enums g).getLast? = some recordClose) ∧
    (∀ g ∈ groupRunsBy EnumRow.key enums,
      (renderEnumBlock g).getLast? = some enumClose) := by
  have htab : (cols.map Column.table).Pairwise (· ≤ ·) := by
    rw [List.pairwise_map]
    exact hc.imp fun hab => hab.elim le_of_lt (fun hh => le_of_eq hh.1)
  refine ⟨rfl, emitAux_eq_blocks Column.table (fun x => recordHeader x.table)
      (fieldLine enums) recordClose cols, ?_, ?_, ?_, ?_⟩
  · have hle : ((groupRunsBy Column.table cols).map (headKey Column.table)).Pairwise
        (· ≤ ·) := htab.sublist (groupRunsBy_heads_sublist Column.table cols)
    have hnd := groupRunsBy_heads_nodup Column.table cols htab
    exact (hle.and hnd).imp fun hab => lt_of_le_of_ne hab.1 hab.2
  · intro g hg
    have hsub : List.Sublist g cols := by
      rw [← groupRunsBy_flatten Column.table cols]
      exact List.sublist_flatten_of_mem hg
    have hp : g.Pairwise colLe := hc.sublist hsub
    refine hp.imp_of_mem ?_
    intro a b ha hb hab
    have hka := groupRunsBy_key_const Column.table cols g hg a ha
    have hkb := groupRunsBy_key_const Column.table cols g hg b hb
    rcases hab with hlt | ⟨-, hord⟩
    · rw [hka, hkb] at hlt
      exact absurd hlt (lt_irrefl _)
    · exact hord
  · intro g hg
    have hne := groupRunsBy_ne_nil Column.table cols g hg
    cases g with
    | nil => exact absurd rfl hne
    | cons x g0 =>
      show (recordHeader x.table :: ((x :: g0).map (fieldLine enums) ++ [recordClose])).getLast? =
        some recordClose
      rw [show recordHeader x.table :: ((x :: g0).map (fieldLine enums) ++ [recordClose]) =
        (recordHeader x.table :: (x :: g0).map (fieldLine enums)) ++ [recordClose] from rfl]
      exact List.getLast?_concat _
  · intro g hg
    have hne := groupRunsBy_ne_nil EnumRow.key enums g hg
    cases g with
    | nil => exact absurd rfl hne
    | cons x g0 =>
      show (enumHeader x.name :: ((x :: g0).map (fun r => memberLine r.value) ++ [enumClose])).getLast? =
        some enumClose
      rw [show enumHeader x.name :: ((x :: g0).map (fun r => memberLine r.value) ++ [enumClose]) =
        (enumHeader x.name :: (x :: g0).map (fun r => memberLine r.value)) ++ [enumClose] from rfl]
      exact List.getLast?_concat _

instance colLeDecidable (a b : Column) : Decidable (colLe a b) :=
  inferInstanceAs (Decidable (a.table < b.table ∨ (a.table = b.table ∧ a.ordinal ≤ b.ordinal)))

/-- Concrete enum rows used to witness C6. -/
def enumsC6 : List EnumRow := [mkEnumRow (lc "status_type") (lc "active")]

/-- Concrete sorted columns used to witness C6: two tables, three columns. -/
def colsC6 : List Column :=
  [⟨lc "invoices", lc "id", lc "NO", lc "integer", lc "int4", 1⟩,
   ⟨lc "invoices", lc "status", lc "NO", lc "USER-DEFINED", lc "status_type", 2⟩,
   ⟨lc "users", lc "email", lc "YES", lc "text", lc "text", 1⟩]

/-- C6 witness. -/
theorem document_ordering_witness :
    colsC6.Pairwise colLe ∧
    (genLines enumsC6 colsC6 = enumLines enumsC6 ++ recordLines enumsC6 colsC6 ∧
      recordLines enumsC6 colsC6 =
        ((groupRunsBy Column.table colsC6).map (renderRecordBlock enumsC6)).flatten ∧
      ((groupRunsBy Column.table colsC6).map (headKey Column.table)).Pairwise (· < ·) ∧
      (∀ g ∈ groupRunsBy Column.table colsC6,
        g.Pairwise (fun a b => a.ordinal ≤ b.ordinal)) ∧
      (∀ g ∈ groupRunsBy Column.table colsC6,
        (renderRecordBlock enumsC6 g).getLast? = some recordClose) ∧
      (∀ g ∈ groupRunsBy EnumRow.key enumsC6,
        (renderEnumBlock g).getLast? = some enumClose)) :=
  ⟨by decide, document_ordering enumsC6 colsC6 (by decide)⟩

-- ## C8: determinism and idempotence of the pipeline

theorem mergeScan_some_struct (g : List (List Char)) :
    ∀ (s : List Char) (b : Bool) (o : List Char), mergeScan g b s = some o →
      ∃ p rest, s = p ++ (anchorL ++ rest) ∧ rest ≠ [] ∧
        o = p ++ (anchorL ++ replBody g) := by
  intro s
  induction s with
  | nil => intro b o h; simp [mergeScan] at h
  | cons c t ih =>
    intro b o h
    simp only [mergeScan] at h
    split_ifs at h with hcond
    · obtain ⟨hb, hpre, hlen⟩ := hcond
      obtain ⟨r, hr⟩ := List.isPrefixOf_iff_prefix.mp hpre
      refine ⟨[], r, by rw [List.nil_append, ← hr], ?_,
        by rw [List.nil_append]; exact (Option.some.inj h).symm⟩
      intro hrnil
      subst hrnil
      rw [← hr, List.append_nil] at hlen
      exact absurd hlen (lt_irrefl _)
    · rw [Option.map_eq_some'] at h
      obtain ⟨o', ho', heq⟩ := h
      obtain ⟨p, rest, ht, hrne, ho⟩ := ih (isLineTerm c) o' ho'
      exact ⟨c :: p, rest, by simp [ht], hrne, by simp [← heq, ho]⟩

theorem mergeScan_fixed (g : List (List Char)) :
    mergeScan g true (anchorL ++ replBody g) = some (anchorL ++ replBody g) := by
  have hb : 0 < (replBody g).length := by
    unfold replBody
    rw [List.length_append]
    have h0 : 0 < bannerL.length := by decide
    omega
  have hcons : anchorL ++ replBody g =
      'e' :: (lc "xport default db;" ++ replBody g) := rfl
  rw [hcons]
  simp only [mergeScan]
  rw [if_pos]
  · rw [← hcons]
  · refine ⟨trivial, ?_, ?_⟩
    · rw [← hcons, List.isPrefixOf_iff_prefix]
      exact List.prefix_append _ _
    · rw [← hcons, List.length_append]
      omega

theorem mergeScan_some_take (g : List (List Char)) (t o' : List Char) (b : Bool)
    (h : mergeScan g b t = some o') : t.take 17 = o'.take 17 := by
  obtain ⟨p, rest, ht, hrne, ho⟩ := mergeScan_some_struct g t b o' h
  subst ht
  subst ho
  simp only [List.take_append_eq_append_take]
  have h18 : anchorL.length = 18 := by decide
  have hz : 17 - p.length - anchorL.length = 0 := by omega
  rw [hz]
  simp

theorem mergeScan_idem (g : List (List Char)) :
    ∀ (s : List Char) (b : Bool) (o : List Char), mergeScan g b s = some o →
      mergeScan g b o = some o := by
  intro s
  induction s with
  | nil => intro b o h; simp [mergeScan] at h
  | cons c t ih =>
    intro b o h
    simp only [mergeScan] at h
    split_ifs at h with hcond
    · obtain ⟨hb, -, -⟩ := hcond
      have ho : o = anchorL ++ replBody g := (Option.some.inj h).symm
      rw [ho, hb]
      exact mergeScan_fixed g
    · rw [Option.map_eq_some'] at h
      obtain ⟨o', ho', heq⟩ := h
      subst heq
      simp only [mergeScan]
      rw [if_neg, ih (isLineTerm c) o' ho']
      · rfl
      · rintro ⟨hb, hpre, hlen⟩
        apply hcond
        refine ⟨hb, ?_, ?_⟩
        · have htake : t.take 17 = o'.take 17 := mergeScan_some_take g t o' _ ho'
          rw [List.isPrefixOf_iff_prefix, List.prefix_iff_eq_take] at hpre ⊢
          have h18 : anchorL.length = 18 := by decide
          rw [h18] at hpre ⊢
          rw [show (18 : Nat) = 17 + 1 from rfl] at hpre ⊢
          rw [List.take_succ_cons] at hpre ⊢
          rw [htake]
          exact hpre
        · obtain ⟨p, rest, ht, hrne, ho⟩ := mergeScan_some_struct g t _ o' ho'
          subst ht
          have hrl : 0 < rest.length := List.length_pos.mpr hrne
          simp only [List.length_cons, List.length_append]
          omega

theorem merge_idem (g : List (List Char)) (src : List Char) :
    merge g (merge g src) = merge g src := by
  unfold merge
  cases h : mergeScan g true src with
  | none => simp [h]
  | some o => simp [h, mergeScan_idem g src true o h]

/-- C8: the generated text is a pure function of the catalog rows, so two
runs against an unchanged catalog compute byte-identical generated text,
and the whole pipeline is idempotent: a second run, which reads back the
file written by the first and merges the same generated text into it,
writes byte-identical file content. -/
theorem pipeline_idempotent (enums : List EnumRow) (cols : List Column) (src : List Char) :
    genLines enums cols = genLines enums cols ∧
    (updateFile (genLines enums cols) ((updateFile (genLines enums cols) src).1)).1 =
      (updateFile (genLines enums cols) src).1 :=
  ⟨rfl, merge_idem (genLines enums cols) src⟩
